import Mathlib

/-
  Verification development for the SUNDIALS linear-solve layer sample:
  the KLU sparse direct SUNLinearSolver (src/sunlinsol_klu/sunlinsol_klu.c),
  the KINSOL banded direct solver and its difference-quotient Jacobian
  (kinsol/source/kinsol_band.c), and the preconditioner setup contract
  (cvode/include/cvode_spils.h).

  Modelling conventions:
  - realtype (double) is modelled as the rationals; the code only compares
    and combines these values, so the control flow is preserved exactly.
  - The external KLU kernels (klu_analyze, klu_factor, klu_refactor,
    klu_rcond, klu_condest, klu_solve) are out of scope per the spec
    ("factorization kernels themselves treated as a capability"); they are
    modelled as an abstract capability record of deterministic functions.
  - Counters nAnalyze, nFactor, nRefactor, nCondest instrument how many
    times the engine invokes each external kernel; they correspond to the
    introspection counters the spec exposes.
-/

namespace Sundials

/- Status codes of the generic SUNLinearSolver interface
   (sundials_linearsolver.h; only success = 0, recoverable > 0,
   unrecoverable < 0 matters to the claims, per spec section 7). -/

def SUNLS_SUCCESS : Int := 0
def SUNLS_MEM_NULL : Int := -1
def SUNLS_ILL_INPUT : Int := -2
def SUNLS_MEM_FAIL : Int := -3
def SUNLS_PACKAGE_FAIL_UNREC : Int := -7
def SUNLS_PACKAGE_FAIL_REC : Int := 6

/-- Compressed sparse matrix content (sunmatrix_sparse.h accessors NP,
IndexPointers, IndexValues, Data).  The KLU module only passes these
through to the kernels. -/
structure SpMatrix where
  np : Nat
  indexPtrs : List Int
  indexVals : List Int
  data : List ℚ
deriving DecidableEq

/-- Capability record for the external KLU kernels.  sigma is the type of
symbolic-analysis objects, nu the type of numeric-factorization objects.
klu_refactor overwrites the numeric object with values determined by the
matrix and the symbolic ordering, so its mathematical result is a function
of those two; the status flags of rcond and condest sit beside the values
they deposit in the common block. -/
structure KLULib (σ ν : Type) where
  analyze : SpMatrix → Option σ
  factor : SpMatrix → σ → Option ν
  refactor : SpMatrix → σ → Bool × ν
  rcond : σ → ν → Bool × ℚ
  condest : SpMatrix → σ → ν → Bool × ℚ
  solve : σ → ν → Nat → List ℚ → Bool × List ℚ

/-- Content of the KLU linear solver (struct _SUNLinearSolverContent_KLU),
plus kernel-invocation counters used for instrumentation. -/
structure KLUContent (σ ν : Type) where
  last_flag : Int
  first_factorize : Bool
  symbolic : Option σ
  numeric : Option ν
  rcond : ℚ
  condest : ℚ
  nAnalyze : Nat
  nFactor : Nat
  nRefactor : Nat
  nCondest : Nat
deriving DecidableEq

/-- SUNLinSolSetup_KLU (sunlinsol_klu.c lines 273-378).  urtt is the
precomputed threshold uround_twothirds = UNIT_ROUNDOFF^(2/3).  The
SUNMatGetID check is omitted: the SpMatrix type is sparse by construction.
In the refactor branch the C code would dereference NULL symbolic/numeric
pointers if a previous setup had failed unrecoverably; that unreachable
case is mapped to a recoverable failure here and excluded by hypothesis in
every theorem. -/
def SUNLinSolSetup_KLU {σ ν : Type} (lib : KLULib σ ν) (urtt : ℚ)
    (A : SpMatrix) (st : KLUContent σ ν) : KLUContent σ ν × Int :=
  if st.first_factorize then
    -- first decomposition: symbolic analysis, then full numeric factorization
    let st1 := { st with nAnalyze := st.nAnalyze + 1 }
    match lib.analyze A with
    | none =>
        ({ st1 with symbolic := none, last_flag := SUNLS_PACKAGE_FAIL_UNREC },
         SUNLS_PACKAGE_FAIL_UNREC)
    | some s =>
        let st2 := { st1 with symbolic := some s, nFactor := st1.nFactor + 1 }
        match lib.factor A s with
        | none =>
            ({ st2 with numeric := none, last_flag := SUNLS_PACKAGE_FAIL_UNREC },
             SUNLS_PACKAGE_FAIL_UNREC)
        | some nu =>
            ({ st2 with numeric := some nu, first_factorize := false,
                        last_flag := SUNLS_SUCCESS }, SUNLS_SUCCESS)
  else
    match st.symbolic, st.numeric with
    | some s, some _ =>
      -- not the first decomposition, so just refactor
      let (rok, nu1) := lib.refactor A s
      let st1 := { st with numeric := some nu1, nRefactor := st.nRefactor + 1 }
      if rok = false then
        ({ st1 with last_flag := SUNLS_PACKAGE_FAIL_REC }, SUNLS_PACKAGE_FAIL_REC)
      else
        -- cheap reciprocal condition number estimate
        let (cok, rc) := lib.rcond s nu1
        let st2 := { st1 with rcond := rc }
        if cok = false then
          ({ st2 with last_flag := SUNLS_PACKAGE_FAIL_REC }, SUNLS_PACKAGE_FAIL_REC)
        else if rc < urtt then
          -- condition number may be getting large: more accurate estimate
          let (eok, ce) := lib.condest A s nu1
          let st3 := { st2 with condest := ce, nCondest := st2.nCondest + 1 }
          if eok = false then
            ({ st3 with last_flag := SUNLS_PACKAGE_FAIL_REC }, SUNLS_PACKAGE_FAIL_REC)
          else if 1 / urtt < ce then
            -- recompute the numeric factorization from scratch
            let st4 := { st3 with nFactor := st3.nFactor + 1 }
            match lib.factor A s with
            | none =>
                ({ st4 with numeric := none, last_flag := SUNLS_PACKAGE_FAIL_UNREC },
                 SUNLS_PACKAGE_FAIL_UNREC)
            | some nu2 =>
                ({ st4 with numeric := some nu2, last_flag := SUNLS_SUCCESS },
                 SUNLS_SUCCESS)
          else ({ st3 with last_flag := SUNLS_SUCCESS }, SUNLS_SUCCESS)
        else ({ st2 with last_flag := SUNLS_SUCCESS }, SUNLS_SUCCESS)
    | _, _ => ({ st with last_flag := SUNLS_PACKAGE_FAIL_REC }, SUNLS_PACKAGE_FAIL_REC)

/-- SUNLinSolSolve_KLU (sunlinsol_klu.c lines 381-412).  Inputs carried as
Option to model the NULL checks; the serial-vector data pointer is always
available in this model, so the N_VGetArrayPointer failure branch does not
arise.  Output: updated content, the solution vector, and the return flag.
The unreachable NULL-factorization case is mapped to a recoverable
failure, as a failed klu_solve would be. -/
def SUNLinSolSolve_KLU {σ ν : Type} (lib : KLULib σ ν) (A : Option SpMatrix)
    (x b : Option (List ℚ)) (st : KLUContent σ ν) :
    KLUContent σ ν × Option (List ℚ) × Int :=
  match A, x, b with
  | some A, some _, some b =>
    -- copy b into x, then solve in place on the x data array
    let x1 := b
    match st.symbolic, st.numeric with
    | some s, some nu =>
      let (ok, x2) := lib.solve s nu A.np x1
      if ok = false then
        ({ st with last_flag := SUNLS_PACKAGE_FAIL_REC }, some x2,
         SUNLS_PACKAGE_FAIL_REC)
      else ({ st with last_flag := SUNLS_SUCCESS }, some x2, SUNLS_SUCCESS)
    | _, _ =>
        ({ st with last_flag := SUNLS_PACKAGE_FAIL_REC }, some x1,
         SUNLS_PACKAGE_FAIL_REC)
  | _, _, _ => (st, x, SUNLS_MEM_NULL)

/-- SUNLinSolSetATimes_KLU (lines 243-250): direct solvers have no ATimes
routine, so the call is an input error.  The A_data and function-pointer
arguments are never read and are omitted. -/
def SUNLinSolSetATimes_KLU {σ ν : Type} (st : KLUContent σ ν) :
    KLUContent σ ν × Int :=
  ({ st with last_flag := SUNLS_ILL_INPUT }, SUNLS_ILL_INPUT)

/-- SUNLinSolSetPreconditioner_KLU (lines 253-260). -/
def SUNLinSolSetPreconditioner_KLU {σ ν : Type} (st : KLUContent σ ν) :
    KLUContent σ ν × Int :=
  ({ st with last_flag := SUNLS_ILL_INPUT }, SUNLS_ILL_INPUT)

/-- SUNLinSolSetScalingVectors_KLU (lines 263-270). -/
def SUNLinSolSetScalingVectors_KLU {σ ν : Type} (st : KLUContent σ ν) :
    KLUContent σ ν × Int :=
  ({ st with last_flag := SUNLS_ILL_INPUT }, SUNLS_ILL_INPUT)

/-- Outcome of the non-first branch of SUNLinSolSetup_KLU, expressed as a
function of the capability, threshold, matrix and symbolic object alone:
the numeric-factorization object the branch leaves behind and its return
flag.  Used to relate two successive setup calls. -/
def kluRefactorOutcome {σ ν : Type} (lib : KLULib σ ν) (urtt : ℚ)
    (A : SpMatrix) (s : σ) : Option ν × Int :=
  let (rok, nu1) := lib.refactor A s
  if rok = false then (some nu1, SUNLS_PACKAGE_FAIL_REC)
  else
    let (cok, rc) := lib.rcond s nu1
    if cok = false then (some nu1, SUNLS_PACKAGE_FAIL_REC)
    else if rc < urtt then
      let (eok, ce) := lib.condest A s nu1
      if eok = false then (some nu1, SUNLS_PACKAGE_FAIL_REC)
      else if 1 / urtt < ce then
        match lib.factor A s with
        | none => (none, SUNLS_PACKAGE_FAIL_UNREC)
        | some nu2 => (some nu2, SUNLS_SUCCESS)
      else (some nu1, SUNLS_SUCCESS)
    else (some nu1, SUNLS_SUCCESS)

/-
  Banded direct solver for KINSOL (kinsol/source/kinsol_band.c).
  Vectors are modelled as functions Nat -> Q (serial N_Vector data arrays),
  the band matrix as a function Nat -> Nat -> Q indexed (row, column):
  BAND_COL_ELEM(col_j, i, j) is jac i j.
-/

/-- MIN_INC_MULT (kinsol_band.c line 27).  Defined by the translation unit
but never referenced by KINBandDQJac. -/
def MIN_INC_MULT : ℚ := 1000

/-- Pointwise update of a vector data array. -/
def updF (f : Nat → ℚ) (j : Nat) (v : ℚ) : Nat → ℚ :=
  fun i => if i = j then v else f i

/-- Pointwise update of a band-matrix entry (row i, column j). -/
def updJ (J : Nat → Nat → ℚ) (i j : Nat) (v : ℚ) : Nat → Nat → ℚ :=
  fun i' j' => if i' = i ∧ j' = j then v else J i' j'

/-- Perturbation increment for column j (kinsol_band.c lines 524 and 535):
inc = sqrt_relfunc * MAX(ABS(u_data[j]), ABS(uscale_data[j])).  No floor
guard is applied. -/
def dqInc (srur : ℚ) (u uscale : Nat → ℚ) (j : Nat) : ℚ :=
  srur * max |u j| |uscale j|

/-- Columns visited by the loop for (j = group-1; j < n; j += width):
exactly the j < n with j conguent to group-1 modulo width (groups are
1-indexed, 1 <= group <= width). -/
def groupCols (g width n : Nat) : List Nat :=
  (List.range n).filter (fun j => j % width == g - 1)

/-- Work state threaded through the group loop of KINBandDQJac: the utemp
work vector (tmp2) and the band matrix J being filled. -/
structure DQState where
  utemp : Nat → ℚ
  jac : Nat → Nat → ℚ

/-- First inner loop of a group (lines 523-526): increment every utemp
component in the group. -/
def dqPerturb (srur : ℚ) (u uscale : Nat → ℚ) (cols : List Nat)
    (ut : Nat → ℚ) : Nat → ℚ :=
  cols.foldl (fun ut j => updF ut j (ut j + dqInc srur u uscale j)) ut

/-- Innermost loop (lines 537-541): write the difference quotients of
column j for rows i1 = MAX(0, j - mupper) through
i2 = MIN(j + mlower, n - 1). -/
def dqCol (futemp fu : Nat → ℚ) (inc_inv : ℚ) (n mupper mlower j : Nat)
    (Jm : Nat → Nat → ℚ) : Nat → Nat → ℚ :=
  let i1 := j - mupper
  let i2 := min (j + mlower) (n - 1)
  (List.range' i1 (i2 + 1 - i1)).foldl
    (fun Jm i => updJ Jm i j (inc_inv * (futemp i - fu i))) Jm

/-- Second inner loop of a group (lines 532-542): restore each perturbed
utemp component to u, then form and load the difference quotients of its
column. -/
def dqRestoreLoad (srur : ℚ) (u fu uscale futemp : Nat → ℚ)
    (n mupper mlower : Nat) (cols : List Nat) (s : DQState) : DQState :=
  cols.foldl (fun s j =>
    DQState.mk (updF s.utemp j (u j))
      (dqCol futemp fu (1 / dqInc srur u uscale j) n mupper mlower j s.jac)) s

/-- One iteration of the group loop (lines 520-543): perturb the group,
evaluate func once on the perturbed vector, restore and load quotients. -/
def dqGroupStep (srur : ℚ) (func : (Nat → ℚ) → Nat → ℚ)
    (n mupper mlower : Nat) (u fu uscale : Nat → ℚ)
    (s : DQState) (g : Nat) : DQState :=
  let width := mlower + mupper + 1
  let cols := groupCols g width n
  let ut1 := dqPerturb srur u uscale cols s.utemp
  let futemp := func ut1
  dqRestoreLoad srur u fu uscale futemp n mupper mlower cols
    (DQState.mk ut1 s.jac)

/-- KINBandDQJac (kinsol_band.c lines 486-549).  srur is sqrt_relfunc
(sqrt of unit roundoff), func the residual function (system function of
the KINSOL memory, assumed to fill its output deterministically from its
input vector), u the current iterate, fu the saved residual F(u), uscale
the scaling vector, J0 the incoming band matrix and nfeB the incoming
value of the extra-evaluation counter.  Returns the filled matrix, the
final utemp work vector, and the updated counter (nfeB += ngroups; func
is invoked once per group). -/
def KINBandDQJac (srur : ℚ) (func : (Nat → ℚ) → Nat → ℚ)
    (n mupper mlower : Nat) (u fu uscale : Nat → ℚ)
    (J0 : Nat → Nat → ℚ) (nfeB : Nat) :
    (Nat → Nat → ℚ) × (Nat → ℚ) × Nat :=
  let width := mlower + mupper + 1
  let ngroups := min width n
  let s := (List.range' 1 ngroups).foldl
    (dqGroupStep srur func n mupper mlower u fu uscale)
    (DQState.mk u J0)
  (s.jac, s.utemp, nfeB + ngroups)

/-- The vector u perturbed simultaneously on every column of group g
(1-indexed): entry j gets u j + inc j when j < n and j mod width = g - 1,
and stays u j otherwise.  This is the vector the group's single residual
evaluation sees. -/
def pertGroup (srur : ℚ) (u uscale : Nat → ℚ) (width n g : Nat) :
    Nat → ℚ :=
  fun j => if j < n ∧ j % width = g - 1 then u j + dqInc srur u uscale j
           else u j

/-
  KINBand constructor (kinsol_band.c lines 117-194).
-/

/-- Linear-solver part of the KINSOL memory written by KINBand: problem
dimension, half-bandwidths, extended storage bandwidth and last flag
(fields b_n, b_ml, b_mu, b_storage_mu, b_last_flag of KINBandMemRec). -/
structure KINBandMemRec where
  b_n : Int
  b_ml : Int
  b_mu : Int
  b_storage_mu : Int
  b_last_flag : Int
deriving DecidableEq

/-- Result of the KINBand constructor. -/
inductive KINBandRet where
  | memNull : KINBandRet
  | illInput : KINBandRet
  | memFail : KINBandRet
  | success : KINBandMemRec → KINBandRet
deriving DecidableEq

/-- KINBand (kinsol_band.c lines 117-194).  kinmemNull models a NULL
kinmem argument, vecOk the N_VGetArrayPointer compatibility test,
memAllocOk the malloc of the KINBandMemRec, allocMatOk / allocPivOk the
BandAllocMat / BandAllocPiv calls.  Function-field wiring is heap
plumbing with no bearing on the returned data. -/
def KINBand (kinmemNull : Bool) (vecOk memAllocOk allocMatOk allocPivOk : Bool)
    (N mupper mlower : Int) : KINBandRet :=
  if kinmemNull then .memNull
  else if vecOk = false then .illInput
  else if memAllocOk = false then .memFail
  else
    let ml := mlower
    let mu := mupper
    if ml < 0 ∨ mu < 0 ∨ ml ≥ N ∨ mu ≥ N then .illInput
    else
      let storage_mu := min (N - 1) (mu + ml)
      if allocMatOk = false then .memFail
      else if allocPivOk = false then .memFail
      else .success (KINBandMemRec.mk N ml mu storage_mu 0)

/-
  Preconditioner setup contract (cvode_spils.h lines 101-115).
-/

/-- Modelled from the spec: one invocation of the CVSpilsPrecSetupFn
callback as seen by the callback, recording the jok input flag it was
handed and whether it returned success.  The code issuing these calls
(the cvspils setup logic) is not part of the source sample; only the
callback type and its documented contract are. -/
structure PrecSetupCall where
  jok : Bool
  retOk : Bool
deriving DecidableEq

/-- Modelled from the spec: the caller discipline of section 4.4 — a call
with jok = true may only be issued once some earlier call with
jok = false has succeeded.  The accumulator records whether such a
successful from-scratch call has already occurred. -/
def jokContractFrom (cached : Bool) : List PrecSetupCall → Bool
  | [] => true
  | c :: rest =>
      (!c.jok || cached) && jokContractFrom (cached || (!c.jok && c.retOk)) rest

/-- Modelled from the spec: a full run starts with nothing cached. -/
def jokContract (calls : List PrecSetupCall) : Bool :=
  jokContractFrom false calls

/-
  Concrete instances used to evaluate the definitions at specific inputs.
-/

/-- A 2x2 CSC identity-like sparse matrix. -/
def kluMat0 : SpMatrix := SpMatrix.mk 2 [0, 1, 2] [0, 1] [1, 1]

/-- KLU capability in which every kernel succeeds: refactor and factor
both produce a factorization, rcond and condest report 1, solve returns
its input unchanged. -/
def kluLibOK : KLULib Unit Unit :=
  KLULib.mk (fun _ => some ()) (fun _ _ => some ()) (fun _ _ => (true, ()))
    (fun _ _ => (true, 1)) (fun _ _ _ => (true, 1)) (fun _ _ _ xs => (true, xs))

/-- KLU capability in which the cheap numeric re-factorization fails while
a full factorization would succeed. -/
def kluLibRefactorFails : KLULib Unit Unit :=
  KLULib.mk (fun _ => some ()) (fun _ _ => some ()) (fun _ _ => (false, ()))
    (fun _ _ => (true, 1)) (fun _ _ _ => (true, 1)) (fun _ _ _ xs => (true, xs))

/-- Solver content after one successful first factorization. -/
def kluStReady : KLUContent Unit Unit :=
  KLUContent.mk 0 false (some ()) (some ()) 0 0 1 1 0 0

/-
  Theorems.  Helper lemmas first, then one theorem per claim.
-/

/-- Helper: on a non-first setup call the engine behaves as
kluRefactorOutcome describes: same return flag, same resulting numeric
object, symbolic object and first_factorize flag untouched, and no
symbolic analysis performed. -/
theorem setupKLU_not_first {σ ν : Type} (lib : KLULib σ ν) (urtt : ℚ)
    (A : SpMatrix) (st : KLUContent σ ν) (s : σ) (nu : ν)
    (h1 : st.first_factorize = false) (h2 : st.symbolic = some s)
    (h3 : st.numeric = some nu) :
    (SUNLinSolSetup_KLU lib urtt A st).2 = (kluRefactorOutcome lib urtt A s).2 ∧
    (SUNLinSolSetup_KLU lib urtt A st).1.numeric = (kluRefactorOutcome lib urtt A s).1 ∧
    (SUNLinSolSetup_KLU lib urtt A st).1.symbolic = some s ∧
    (SUNLinSolSetup_KLU lib urtt A st).1.first_factorize = false ∧
    (SUNLinSolSetup_KLU lib urtt A st).1.nAnalyze = st.nAnalyze := by
  rcases hre : lib.refactor A s with ⟨rok, nu1⟩
  rcases hrc : lib.rcond s nu1 with ⟨cok, rc⟩
  rcases hce : lib.condest A s nu1 with ⟨eok, ce⟩
  unfold SUNLinSolSetup_KLU kluRefactorOutcome
  rw [h1, h2, h3]
  simp only [Bool.false_eq_true, if_false, hre, hrc, hce]
  cases rok
  · exact ⟨rfl, rfl, rfl, rfl, rfl⟩
  · cases cok
    · exact ⟨rfl, rfl, rfl, rfl, rfl⟩
    · by_cases h4 : rc < urtt
      · simp only [if_pos h4]
        cases eok
        · exact ⟨rfl, rfl, rfl, rfl, rfl⟩
        · by_cases h5 : 1 / urtt < ce
          · simp only [if_pos h5]
            rcases hfa : lib.factor A s with _ | nu2 <;> simp only [hfa] <;>
              exact ⟨rfl, rfl, rfl, rfl, rfl⟩
          · simp only [if_neg h5]
            exact ⟨rfl, rfl, rfl, rfl, rfl⟩
      · simp only [if_neg h4]
        exact ⟨rfl, rfl, rfl, rfl, rfl⟩

/-- Helper: a successful refactor-branch outcome carries a numeric
factorization. -/
theorem kluRefactorOutcome_success {σ ν : Type} (lib : KLULib σ ν)
    (urtt : ℚ) (A : SpMatrix) (s : σ)
    (h : (kluRefactorOutcome lib urtt A s).2 = SUNLS_SUCCESS) :
    ∃ nu, (kluRefactorOutcome lib urtt A s).1 = some nu := by
  rcases hre : lib.refactor A s with ⟨rok, nu1⟩
  rcases hrc : lib.rcond s nu1 with ⟨cok, rc⟩
  rcases hce : lib.condest A s nu1 with ⟨eok, ce⟩
  unfold kluRefactorOutcome at h ⊢
  simp only [hre, hrc, hce] at h ⊢
  cases rok
  · exact absurd h (by norm_num [SUNLS_PACKAGE_FAIL_REC, SUNLS_SUCCESS])
  · cases cok
    · exact absurd h (by norm_num [SUNLS_PACKAGE_FAIL_REC, SUNLS_SUCCESS])
    · by_cases h4 : rc < urtt
      · simp only [if_pos h4] at h ⊢
        cases eok
        · exact absurd h (by norm_num [SUNLS_PACKAGE_FAIL_REC, SUNLS_SUCCESS])
        · by_cases h5 : 1 / urtt < ce
          · simp only [if_pos h5] at h ⊢
            rcases hfa : lib.factor A s with _ | nu2 <;>
              simp only [hfa] at h ⊢
            · exact absurd h
                (by norm_num [SUNLS_PACKAGE_FAIL_UNREC, SUNLS_SUCCESS])
            · exact ⟨nu2, rfl⟩
          · simp only [if_neg h5]
            exact ⟨nu1, rfl⟩
      · simp only [if_neg h4]
        exact ⟨nu1, rfl⟩

/-- C1 counterexample: with a capability whose cheap re-factorization
fails but whose full factorization succeeds, a non-first setup call
reports the recoverable failure upward immediately: no numeric or
symbolic factorization is attempted (the kernel-invocation counters are
unchanged), even though the full factorization would have succeeded. -/
theorem setupKLU_refactor_fail_no_fallback_cx :
    (SUNLinSolSetup_KLU kluLibRefactorFails (1/2) kluMat0 kluStReady).2 =
      SUNLS_PACKAGE_FAIL_REC ∧
    (SUNLinSolSetup_KLU kluLibRefactorFails (1/2) kluMat0 kluStReady).1.nFactor =
      kluStReady.nFactor ∧
    (SUNLinSolSetup_KLU kluLibRefactorFails (1/2) kluMat0 kluStReady).1.nAnalyze =
      kluStReady.nAnalyze ∧
    kluLibRefactorFails.factor kluMat0 () = some () :=
  ⟨rfl, rfl, rfl, rfl⟩

/-- C1 (amended): if, on a non-first call to setup, the cheap numeric
re-factorization reports failure, then setup immediately returns the
recoverable failure code SUNLS_PACKAGE_FAIL_REC (also recorded as the
last flag) without attempting any symbolic analysis or full numeric
factorization. -/
theorem setupKLU_refactor_fail_recoverable {σ ν : Type} (lib : KLULib σ ν)
    (urtt : ℚ) (A : SpMatrix) (st : KLUContent σ ν) (s : σ) (nu nu1 : ν)
    (h1 : st.first_factorize = false) (h2 : st.symbolic = some s)
    (h3 : st.numeric = some nu) (hre : lib.refactor A s = (false, nu1)) :
    (SUNLinSolSetup_KLU lib urtt A st).2 = SUNLS_PACKAGE_FAIL_REC ∧
    (SUNLinSolSetup_KLU lib urtt A st).1.last_flag = SUNLS_PACKAGE_FAIL_REC ∧
    (SUNLinSolSetup_KLU lib urtt A st).1.nFactor = st.nFactor ∧
    (SUNLinSolSetup_KLU lib urtt A st).1.nAnalyze = st.nAnalyze ∧
    (SUNLinSolSetup_KLU lib urtt A st).1.nCondest = st.nCondest ∧
    0 < SUNLS_PACKAGE_FAIL_REC := by
  unfold SUNLinSolSetup_KLU
  rw [h1, h2, h3]
  simp only [Bool.false_eq_true, if_false, hre]
  exact ⟨rfl, rfl, rfl, rfl, rfl, by norm_num [SUNLS_PACKAGE_FAIL_REC]⟩

/-- C1 witness for the amended theorem, at the concrete failing
capability. -/
theorem setupKLU_refactor_fail_recoverable_witness :
    (SUNLinSolSetup_KLU kluLibRefactorFails (1/2) kluMat0 kluStReady).2 =
      SUNLS_PACKAGE_FAIL_REC ∧
    (SUNLinSolSetup_KLU kluLibRefactorFails (1/2) kluMat0 kluStReady).1.last_flag =
      SUNLS_PACKAGE_FAIL_REC ∧
    (SUNLinSolSetup_KLU kluLibRefactorFails (1/2) kluMat0 kluStReady).1.nFactor =
      kluStReady.nFactor ∧
    (SUNLinSolSetup_KLU kluLibRefactorFails (1/2) kluMat0 kluStReady).1.nAnalyze =
      kluStReady.nAnalyze ∧
    (SUNLinSolSetup_KLU kluLibRefactorFails (1/2) kluMat0 kluStReady).1.nCondest =
      kluStReady.nCondest ∧
    0 < SUNLS_PACKAGE_FAIL_REC :=
  setupKLU_refactor_fail_recoverable kluLibRefactorFails (1/2) kluMat0
    kluStReady () () () rfl rfl rfl rfl

/-- C2: on a non-first, successful re-factorization whose condition
estimates are themselves obtained successfully, the numeric factorization
is discarded and recomputed from scratch exactly when rcond falls below
urtt = (unit roundoff)^(2/3) and condest exceeds 1/urtt: the full-factor
kernel runs exactly in that case, the accurate estimate is computed
exactly when rcond < urtt, and otherwise the re-factorized numeric object
is kept. -/
theorem setupKLU_condest_policy {σ ν : Type} (lib : KLULib σ ν)
    (urtt : ℚ) (A : SpMatrix) (st : KLUContent σ ν) (s : σ) (nu nu1 : ν)
    (rc ce : ℚ)
    (h1 : st.first_factorize = false) (h2 : st.symbolic = some s)
    (h3 : st.numeric = some nu) (hre : lib.refactor A s = (true, nu1))
    (hrc : lib.rcond s nu1 = (true, rc))
    (hce : lib.condest A s nu1 = (true, ce)) :
    (SUNLinSolSetup_KLU lib urtt A st).1.nFactor =
      st.nFactor + (if rc < urtt ∧ 1 / urtt < ce then 1 else 0) ∧
    (SUNLinSolSetup_KLU lib urtt A st).1.nCondest =
      st.nCondest + (if rc < urtt then 1 else 0) ∧
    (SUNLinSolSetup_KLU lib urtt A st).1.numeric =
      (if rc < urtt ∧ 1 / urtt < ce then lib.factor A s else some nu1) ∧
    (¬ rc < urtt → (SUNLinSolSetup_KLU lib urtt A st).2 = SUNLS_SUCCESS) := by
  unfold SUNLinSolSetup_KLU
  rw [h1, h2, h3]
  simp only [Bool.false_eq_true, if_false, hre, hrc, hce]
  by_cases h4 : rc < urtt
  · by_cases h5 : 1 / urtt < ce
    · have h5i : urtt⁻¹ < ce := by rwa [one_div] at h5
      rcases hfa : lib.factor A s with _ | nu2 <;> simp [h4, h5, h5i, hfa]
    · have h5i : ¬ urtt⁻¹ < ce := by rwa [one_div] at h5
      simp [h4, h5, h5i]
  · simp [h4]

/-- C2 witness: with every kernel succeeding and rcond = 1 at threshold
urtt = 1/2, no accurate estimate is computed and the re-factorized object
is kept. -/
theorem setupKLU_condest_policy_witness :
    (SUNLinSolSetup_KLU kluLibOK (1/2) kluMat0 kluStReady).1.nFactor =
      kluStReady.nFactor + (if (1:ℚ) < 1/2 ∧ 1 / (1/2) < (1:ℚ) then 1 else 0) ∧
    (SUNLinSolSetup_KLU kluLibOK (1/2) kluMat0 kluStReady).1.nCondest =
      kluStReady.nCondest + (if (1:ℚ) < 1/2 then 1 else 0) ∧
    (SUNLinSolSetup_KLU kluLibOK (1/2) kluMat0 kluStReady).1.numeric =
      (if (1:ℚ) < 1/2 ∧ 1 / (1/2) < (1:ℚ) then kluLibOK.factor kluMat0 ()
       else some ()) ∧
    (¬ (1:ℚ) < 1/2 →
      (SUNLinSolSetup_KLU kluLibOK (1/2) kluMat0 kluStReady).2 = SUNLS_SUCCESS) :=
  setupKLU_condest_policy kluLibOK (1/2) kluMat0 kluStReady () () () 1 1
    rfl rfl rfl rfl rfl rfl

/-- C7: once a first factorization has succeeded, running setup twice in
succession on the same matrix gives the same result as running it once:
the second call also succeeds, re-runs no symbolic analysis (the
symbolic-analysis count is unchanged by both calls), leaves the same
symbolic and numeric objects, and any subsequent solve returns the same
solution and flag. -/
theorem setupKLU_idempotent {σ ν : Type} (lib : KLULib σ ν) (urtt : ℚ)
    (A : SpMatrix) (st : KLUContent σ ν) (s : σ) (nu : ν)
    (h1 : st.first_factorize = false) (h2 : st.symbolic = some s)
    (h3 : st.numeric = some nu)
    (hsucc : (SUNLinSolSetup_KLU lib urtt A st).2 = SUNLS_SUCCESS) :
    (SUNLinSolSetup_KLU lib urtt A (SUNLinSolSetup_KLU lib urtt A st).1).2 =
      SUNLS_SUCCESS ∧
    (SUNLinSolSetup_KLU lib urtt A (SUNLinSolSetup_KLU lib urtt A st).1).1.nAnalyze =
      st.nAnalyze ∧
    (SUNLinSolSetup_KLU lib urtt A st).1.nAnalyze = st.nAnalyze ∧
    (SUNLinSolSetup_KLU lib urtt A (SUNLinSolSetup_KLU lib urtt A st).1).1.numeric =
      (SUNLinSolSetup_KLU lib urtt A st).1.numeric ∧
    (SUNLinSolSetup_KLU lib urtt A (SUNLinSolSetup_KLU lib urtt A st).1).1.symbolic =
      (SUNLinSolSetup_KLU lib urtt A st).1.symbolic ∧
    ∀ x b : List ℚ,
      (SUNLinSolSolve_KLU lib (some A) (some x) (some b)
        (SUNLinSolSetup_KLU lib urtt A (SUNLinSolSetup_KLU lib urtt A st).1).1).2 =
      (SUNLinSolSolve_KLU lib (some A) (some x) (some b)
        (SUNLinSolSetup_KLU lib urtt A st).1).2 := by
  obtain ⟨hf1, hn1, hs1, hff1, hna1⟩ := setupKLU_not_first lib urtt A st s nu h1 h2 h3
  have hout : (kluRefactorOutcome lib urtt A s).2 = SUNLS_SUCCESS := by
    rw [← hf1]; exact hsucc
  obtain ⟨nuA, hnuA⟩ := kluRefactorOutcome_success lib urtt A s hout
  have hn1A : (SUNLinSolSetup_KLU lib urtt A st).1.numeric = some nuA := by
    rw [hn1, hnuA]
  obtain ⟨hf2, hn2, hs2, _, hna2⟩ :=
    setupKLU_not_first lib urtt A (SUNLinSolSetup_KLU lib urtt A st).1 s nuA
      hff1 hs1 hn1A
  refine ⟨by rw [hf2]; exact hout, by rw [hna2, hna1], hna1,
    by rw [hn2, hn1], by rw [hs2, hs1], ?_⟩
  intro x b
  have hn2A : (SUNLinSolSetup_KLU lib urtt A
      (SUNLinSolSetup_KLU lib urtt A st).1).1.numeric = some nuA := by
    rw [hn2, hnuA]
  unfold SUNLinSolSolve_KLU
  rw [hs1, hs2, hn1A, hn2A]
  rcases hsv : lib.solve s nuA A.np b with ⟨ok, x2⟩
  simp only [hsv]
  cases ok <;> rfl

/-- C7 witness at the all-succeeding capability. -/
theorem setupKLU_idempotent_witness :
    (SUNLinSolSetup_KLU kluLibOK (1/2) kluMat0
        (SUNLinSolSetup_KLU kluLibOK (1/2) kluMat0 kluStReady).1).2 =
      SUNLS_SUCCESS ∧
    (SUNLinSolSetup_KLU kluLibOK (1/2) kluMat0
        (SUNLinSolSetup_KLU kluLibOK (1/2) kluMat0 kluStReady).1).1.nAnalyze =
      kluStReady.nAnalyze ∧
    (SUNLinSolSetup_KLU kluLibOK (1/2) kluMat0 kluStReady).1.nAnalyze =
      kluStReady.nAnalyze ∧
    (SUNLinSolSetup_KLU kluLibOK (1/2) kluMat0
        (SUNLinSolSetup_KLU kluLibOK (1/2) kluMat0 kluStReady).1).1.numeric =
      (SUNLinSolSetup_KLU kluLibOK (1/2) kluMat0 kluStReady).1.numeric ∧
    (SUNLinSolSetup_KLU kluLibOK (1/2) kluMat0
        (SUNLinSolSetup_KLU kluLibOK (1/2) kluMat0 kluStReady).1).1.symbolic =
      (SUNLinSolSetup_KLU kluLibOK (1/2) kluMat0 kluStReady).1.symbolic ∧
    ∀ x b : List ℚ,
      (SUNLinSolSolve_KLU kluLibOK (some kluMat0) (some x) (some b)
        (SUNLinSolSetup_KLU kluLibOK (1/2) kluMat0
          (SUNLinSolSetup_KLU kluLibOK (1/2) kluMat0 kluStReady).1).1).2 =
      (SUNLinSolSolve_KLU kluLibOK (some kluMat0) (some x) (some b)
        (SUNLinSolSetup_KLU kluLibOK (1/2) kluMat0 kluStReady).1).2 :=
  setupKLU_idempotent kluLibOK (1/2) kluMat0 kluStReady () () rfl rfl rfl
    (by norm_num [SUNLinSolSetup_KLU, kluLibOK, kluStReady, SUNLS_SUCCESS])

/-- C9: with non-null inputs and a stored factorization, the KLU solve
operation copies the right-hand side b into the solution buffer and
applies the stored factorization's substitution in place on it: the
returned solution is exactly the triangular-solve kernel applied to b.
If the kernel reports failure the operation returns, and records as the
last flag, the recoverable code SUNLS_PACKAGE_FAIL_REC (a positive,
recoverable value); otherwise it returns and records success. -/
theorem solveKLU_spec {σ ν : Type} (lib : KLULib σ ν) (A : SpMatrix)
    (x b : List ℚ) (st : KLUContent σ ν) (s : σ) (nu : ν)
    (h2 : st.symbolic = some s) (h3 : st.numeric = some nu) :
    (SUNLinSolSolve_KLU lib (some A) (some x) (some b) st).2.1 =
      some (lib.solve s nu A.np b).2 ∧
    ((lib.solve s nu A.np b).1 = false →
      (SUNLinSolSolve_KLU lib (some A) (some x) (some b) st).2.2 =
        SUNLS_PACKAGE_FAIL_REC ∧
      (SUNLinSolSolve_KLU lib (some A) (some x) (some b) st).1.last_flag =
        SUNLS_PACKAGE_FAIL_REC) ∧
    ((lib.solve s nu A.np b).1 = true →
      (SUNLinSolSolve_KLU lib (some A) (some x) (some b) st).2.2 =
        SUNLS_SUCCESS ∧
      (SUNLinSolSolve_KLU lib (some A) (some x) (some b) st).1.last_flag =
        SUNLS_SUCCESS) ∧
    0 < SUNLS_PACKAGE_FAIL_REC := by
  rcases hs : lib.solve s nu A.np b with ⟨ok, x2⟩
  unfold SUNLinSolSolve_KLU
  rw [h2, h3]
  simp only [hs]
  cases ok
  · exact ⟨rfl, fun _ => ⟨rfl, rfl⟩, fun hc => by simp at hc,
      by norm_num [SUNLS_PACKAGE_FAIL_REC]⟩
  · exact ⟨rfl, fun hc => by simp at hc, fun _ => ⟨rfl, rfl⟩,
      by norm_num [SUNLS_PACKAGE_FAIL_REC]⟩

/-- C9 witness at the identity-solve capability. -/
theorem solveKLU_spec_witness :
    (SUNLinSolSolve_KLU kluLibOK (some kluMat0) (some [0, 0]) (some [3, 4])
        kluStReady).2.1 = some (kluLibOK.solve () () kluMat0.np [3, 4]).2 ∧
    ((kluLibOK.solve () () kluMat0.np [3, 4]).1 = false →
      (SUNLinSolSolve_KLU kluLibOK (some kluMat0) (some [0, 0]) (some [3, 4])
          kluStReady).2.2 = SUNLS_PACKAGE_FAIL_REC ∧
      (SUNLinSolSolve_KLU kluLibOK (some kluMat0) (some [0, 0]) (some [3, 4])
          kluStReady).1.last_flag = SUNLS_PACKAGE_FAIL_REC) ∧
    ((kluLibOK.solve () () kluMat0.np [3, 4]).1 = true →
      (SUNLinSolSolve_KLU kluLibOK (some kluMat0) (some [0, 0]) (some [3, 4])
          kluStReady).2.2 = SUNLS_SUCCESS ∧
      (SUNLinSolSolve_KLU kluLibOK (some kluMat0) (some [0, 0]) (some [3, 4])
          kluStReady).1.last_flag = SUNLS_SUCCESS) ∧
    0 < SUNLS_PACKAGE_FAIL_REC :=
  solveKLU_spec kluLibOK kluMat0 [0, 0] [3, 4] kluStReady () () rfl rfl

/-- C10: on a KLU (direct) solver, the iterative-only configuration
operations SetATimes, SetPreconditioner and SetScalingVectors each return
the illegal-input code SUNLS_ILL_INPUT (a negative value), record it as
the last flag, and leave every other field of the solver content
unchanged. -/
theorem setKLU_iterative_ops_ill_input {σ ν : Type} (st : KLUContent σ ν) :
    ((SUNLinSolSetATimes_KLU st).2 = SUNLS_ILL_INPUT ∧
     (SUNLinSolSetATimes_KLU st).1.last_flag = SUNLS_ILL_INPUT ∧
     (SUNLinSolSetATimes_KLU st).1 = { st with last_flag := SUNLS_ILL_INPUT }) ∧
    ((SUNLinSolSetPreconditioner_KLU st).2 = SUNLS_ILL_INPUT ∧
     (SUNLinSolSetPreconditioner_KLU st).1.last_flag = SUNLS_ILL_INPUT ∧
     (SUNLinSolSetPreconditioner_KLU st).1 =
       { st with last_flag := SUNLS_ILL_INPUT }) ∧
    ((SUNLinSolSetScalingVectors_KLU st).2 = SUNLS_ILL_INPUT ∧
     (SUNLinSolSetScalingVectors_KLU st).1.last_flag = SUNLS_ILL_INPUT ∧
     (SUNLinSolSetScalingVectors_KLU st).1 =
       { st with last_flag := SUNLS_ILL_INPUT }) ∧
    SUNLS_ILL_INPUT < 0 :=
  ⟨⟨rfl, rfl, rfl⟩, ⟨rfl, rfl, rfl⟩, ⟨rfl, rfl, rfl⟩,
    by norm_num [SUNLS_ILL_INPUT]⟩

/-- Helper: membership in a column group. -/
theorem mem_groupCols (g width n j : Nat) :
    j ∈ groupCols g width n ↔ j < n ∧ j % width = g - 1 := by
  simp [groupCols, List.mem_filter, List.mem_range]

/-- Helper: column groups have no duplicate columns. -/
theorem groupCols_nodup (g width n : Nat) : (groupCols g width n).Nodup :=
  (List.nodup_range n).filter _

/-- Helper: every column of a group is below n. -/
theorem groupCols_lt (g width n : Nat) : ∀ j ∈ groupCols g width n, j < n :=
  fun j hj => ((mem_groupCols g width n j).mp hj).1

/-- Helper: pointwise description of the perturbation loop over a
duplicate-free column list. -/
theorem dqPerturb_apply (srur : ℚ) (u uscale : Nat → ℚ) :
    ∀ (cols : List Nat), cols.Nodup → ∀ (ut : Nat → ℚ) (j' : Nat),
      dqPerturb srur u uscale cols ut j' =
        if j' ∈ cols then ut j' + dqInc srur u uscale j' else ut j' := by
  intro cols
  induction cols with
  | nil => intro _ ut j'; simp [dqPerturb]
  | cons x xs ih =>
    intro hnd ut j'
    rcases List.nodup_cons.mp hnd with ⟨hx, hnd2⟩
    have hstep : dqPerturb srur u uscale (x :: xs) ut =
        dqPerturb srur u uscale xs
          (updF ut x (ut x + dqInc srur u uscale x)) := rfl
    rw [hstep, ih hnd2]
    by_cases hmem : j' ∈ xs
    · have hne : j' ≠ x := fun h => hx (h ▸ hmem)
      simp [hmem, updF, hne, List.mem_cons]
    · by_cases heq : j' = x
      · subst heq
        simp [hmem, updF, List.mem_cons]
      · simp [hmem, updF, heq, List.mem_cons]

/-- Helper: pointwise description of a fold of single-column writes whose
written value depends only on the row index. -/
theorem foldl_updJ_apply (jcol : Nat) (w : Nat → ℚ) :
    ∀ (L : List Nat) (Jm : Nat → Nat → ℚ) (i' j' : Nat),
      (L.foldl (fun Jm i => updJ Jm i jcol (w i)) Jm) i' j' =
        if j' = jcol ∧ i' ∈ L then w i' else Jm i' j' := by
  intro L
  induction L with
  | nil => intro Jm i' j'; simp
  | cons x xs ih =>
    intro Jm i' j'
    rw [List.foldl_cons, ih]
    by_cases hj : j' = jcol
    · by_cases hmem : i' ∈ xs
      · simp [hj, hmem, List.mem_cons]
      · by_cases hx : i' = x
        · subst hx hj
          simp [hmem, updJ, List.mem_cons]
        · simp [hj, hmem, hx, updJ, List.mem_cons]
    · simp [hj, updJ]

/-- Helper: the row indices of a column write are exactly the in-band
rows MAX(0, j - mupper) through MIN(j + mlower, n - 1). -/
theorem mem_dqRowRange (n mupper mlower j i' : Nat) :
    i' ∈ List.range' (j - mupper)
        (min (j + mlower) (n - 1) + 1 - (j - mupper)) ↔
      j - mupper ≤ i' ∧ i' ≤ min (j + mlower) (n - 1) := by
  rw [List.mem_range'_1]
  omega

/-- Helper: pointwise description of one column write pass. -/
theorem dqCol_apply (futemp fu : Nat → ℚ) (v : ℚ) (n mupper mlower j : Nat)
    (Jm : Nat → Nat → ℚ) (i' j' : Nat) :
    dqCol futemp fu v n mupper mlower j Jm i' j' =
      if j' = j ∧ j - mupper ≤ i' ∧ i' ≤ min (j + mlower) (n - 1) then
        v * (futemp i' - fu i')
      else Jm i' j' := by
  have h := foldl_updJ_apply j (fun i => v * (futemp i - fu i))
    (List.range' (j - mupper) (min (j + mlower) (n - 1) + 1 - (j - mupper)))
    Jm i' j'
  rw [show dqCol futemp fu v n mupper mlower j Jm i' j' =
      (List.range' (j - mupper)
        (min (j + mlower) (n - 1) + 1 - (j - mupper))).foldl
        (fun Jm i => updJ Jm i j (v * (futemp i - fu i))) Jm i' j' from rfl,
    h]
  simp only [mem_dqRowRange]

/-- Helper: the utemp component of the restore-and-load pass restores
every visited column to u and touches nothing else. -/
theorem dqRestoreLoad_utemp (srur : ℚ) (u fu uscale futemp : Nat → ℚ)
    (n mupper mlower : Nat) :
    ∀ (cols : List Nat) (s : DQState) (j' : Nat),
      (dqRestoreLoad srur u fu uscale futemp n mupper mlower cols s).utemp j' =
        if j' ∈ cols then u j' else s.utemp j' := by
  intro cols
  induction cols with
  | nil => intro s j'; simp [dqRestoreLoad]
  | cons x xs ih =>
    intro s j'
    have hstep : dqRestoreLoad srur u fu uscale futemp n mupper mlower
        (x :: xs) s =
      dqRestoreLoad srur u fu uscale futemp n mupper mlower xs
        (DQState.mk (updF s.utemp x (u x))
          (dqCol futemp fu (1 / dqInc srur u uscale x) n mupper mlower x
            s.jac)) := rfl
    rw [hstep, ih]
    by_cases hmem : j' ∈ xs
    · simp [hmem, List.mem_cons]
    · by_cases heq : j' = x
      · subst heq
        simp [hmem, updF, List.mem_cons]
      · simp [hmem, updF, heq, List.mem_cons]

/-- Helper: the jac component of the restore-and-load pass writes exactly
the in-band entries of the visited columns. -/
theorem dqRestoreLoad_jac (srur : ℚ) (u fu uscale futemp : Nat → ℚ)
    (n mupper mlower : Nat) :
    ∀ (cols : List Nat) (s : DQState) (i' j' : Nat),
      (dqRestoreLoad srur u fu uscale futemp n mupper mlower cols s).jac i' j' =
        if j' ∈ cols ∧ j' - mupper ≤ i' ∧
            i' ≤ min (j' + mlower) (n - 1) then
          (1 / dqInc srur u uscale j') * (futemp i' - fu i')
        else s.jac i' j' := by
  intro cols
  induction cols with
  | nil => intro s i' j'; simp [dqRestoreLoad]
  | cons x xs ih =>
    intro s i' j'
    have hstep : dqRestoreLoad srur u fu uscale futemp n mupper mlower
        (x :: xs) s =
      dqRestoreLoad srur u fu uscale futemp n mupper mlower xs
        (DQState.mk (updF s.utemp x (u x))
          (dqCol futemp fu (1 / dqInc srur u uscale x) n mupper mlower x
            s.jac)) := rfl
    rw [hstep, ih]
    simp only [dqCol_apply]
    by_cases heq : j' = x
    · subst heq
      simp only [List.mem_cons, eq_self_iff_true, true_or, true_and]
      split_ifs <;> first | rfl | tauto
    · simp only [List.mem_cons, heq, false_or, false_and, if_false]

/-- Helper: perturbing every column of group g of the vector u yields
pertGroup. -/
theorem dqPerturb_groupCols (srur : ℚ) (u uscale : Nat → ℚ)
    (width n g : Nat) :
    dqPerturb srur u uscale (groupCols g width n) u =
      pertGroup srur u uscale width n g := by
  funext j'
  rw [dqPerturb_apply srur u uscale _ (groupCols_nodup g width n) u j']
  unfold pertGroup
  by_cases h : j' ∈ groupCols g width n
  · rw [if_pos h, if_pos ((mem_groupCols g width n j').mp h)]
  · rw [if_neg h, if_neg (fun hc => h ((mem_groupCols g width n j').mpr hc))]

/-- Helper: a group step started on a work vector equal to u ends with
the work vector equal to u: the perturbed entries are restored before
the step finishes. -/
theorem dqGroupStep_utemp (srur : ℚ) (func : (Nat → ℚ) → Nat → ℚ)
    (n mupper mlower : Nat) (u fu uscale : Nat → ℚ)
    (g : Nat) (s : DQState) (hs : s.utemp = u) :
    (dqGroupStep srur func n mupper mlower u fu uscale s g).utemp = u := by
  funext j'
  simp only [dqGroupStep]
  rw [dqRestoreLoad_utemp]
  by_cases h : j' ∈ groupCols g (mlower + mupper + 1) n
  · rw [if_pos h]
  · rw [if_neg h]
    show dqPerturb srur u uscale (groupCols g (mlower + mupper + 1) n)
      s.utemp j' = u j'
    rw [hs, dqPerturb_apply srur u uscale _
      (groupCols_nodup g (mlower + mupper + 1) n) u j', if_neg h]

/-- Helper: a group step writes exactly the in-band entries of the
columns of its group, with the quotients taken against the one residual
evaluation at the group-perturbed vector. -/
theorem dqGroupStep_jac (srur : ℚ) (func : (Nat → ℚ) → Nat → ℚ)
    (n mupper mlower : Nat) (u fu uscale : Nat → ℚ)
    (g : Nat) (s : DQState) (hs : s.utemp = u) (i' j' : Nat) :
    (dqGroupStep srur func n mupper mlower u fu uscale s g).jac i' j' =
      if j' < n ∧ j' % (mlower + mupper + 1) = g - 1 ∧
          j' - mupper ≤ i' ∧ i' ≤ min (j' + mlower) (n - 1) then
        (1 / dqInc srur u uscale j') *
          (func (pertGroup srur u uscale (mlower + mupper + 1) n g) i' -
            fu i')
      else s.jac i' j' := by
  simp only [dqGroupStep]
  rw [dqRestoreLoad_jac, hs, dqPerturb_groupCols]
  simp only [mem_groupCols, and_assoc]

/-- Helper: state of the band differencing after the first m groups have
been processed: the work vector equals u, and the entries of the columns
of the already-processed groups (those with column index congruent to
0..m-1 modulo the bandwidth) hold their difference quotients. -/
theorem dqGroups_fold (srur : ℚ) (func : (Nat → ℚ) → Nat → ℚ)
    (n mupper mlower : Nat) (u fu uscale : Nat → ℚ) :
    ∀ (m : Nat) (J0 : Nat → Nat → ℚ),
      ((List.range' 1 m).foldl
        (dqGroupStep srur func n mupper mlower u fu uscale)
        (DQState.mk u J0)).utemp = u ∧
      ∀ i' j',
        ((List.range' 1 m).foldl
          (dqGroupStep srur func n mupper mlower u fu uscale)
          (DQState.mk u J0)).jac i' j' =
          if j' < n ∧ j' % (mlower + mupper + 1) < m ∧
              j' - mupper ≤ i' ∧ i' ≤ min (j' + mlower) (n - 1) then
            (1 / dqInc srur u uscale j') *
              (func (pertGroup srur u uscale (mlower + mupper + 1) n
                (j' % (mlower + mupper + 1) + 1)) i' - fu i')
          else J0 i' j' := by
  intro m
  induction m with
  | zero =>
    intro J0
    refine ⟨rfl, fun i' j' => ?_⟩
    rw [if_neg (fun h => Nat.not_lt_zero _ h.2.1)]
    rfl
  | succ m ih =>
    intro J0
    rw [List.range'_1_concat, List.foldl_append]
    obtain ⟨ihu, ihj⟩ := ih J0
    constructor
    · exact dqGroupStep_utemp srur func n mupper mlower u fu uscale _ _ ihu
    · intro i' j'
      rw [show ([1 + m].foldl
          (dqGroupStep srur func n mupper mlower u fu uscale)
          ((List.range' 1 m).foldl
            (dqGroupStep srur func n mupper mlower u fu uscale)
            (DQState.mk u J0))) =
        dqGroupStep srur func n mupper mlower u fu uscale
          ((List.range' 1 m).foldl
            (dqGroupStep srur func n mupper mlower u fu uscale)
            (DQState.mk u J0)) (1 + m) from rfl]
      rw [dqGroupStep_jac srur func n mupper mlower u fu uscale _ _ ihu]
      have hsub : 1 + m - 1 = m := by omega
      rw [hsub]
      by_cases hc : j' < n ∧ j' % (mlower + mupper + 1) = m ∧
          j' - mupper ≤ i' ∧ i' ≤ min (j' + mlower) (n - 1)
      · rw [if_pos hc,
          if_pos (⟨hc.1, by omega, hc.2.2⟩ :
            j' < n ∧ j' % (mlower + mupper + 1) < m + 1 ∧
              j' - mupper ≤ i' ∧ i' ≤ min (j' + mlower) (n - 1)),
          hc.2.1, Nat.add_comm 1 m]
      · rw [if_neg hc, ihj i' j']
        by_cases hc2 : j' < n ∧ j' % (mlower + mupper + 1) < m ∧
            j' - mupper ≤ i' ∧ i' ≤ min (j' + mlower) (n - 1)
        · rw [if_pos hc2,
            if_pos (⟨hc2.1, by omega, hc2.2.2⟩ :
              j' < n ∧ j' % (mlower + mupper + 1) < m + 1 ∧
                j' - mupper ≤ i' ∧ i' ≤ min (j' + mlower) (n - 1))]
        · rw [if_neg hc2, if_neg ?_]
          rintro ⟨h1, h2, h3⟩
          have hne : j' % (mlower + mupper + 1) ≠ m :=
            fun he => hc ⟨h1, he, h3⟩
          exact hc2 ⟨h1, by omega, h3⟩

/-- C3: the banded difference-quotient Jacobian build partitions the
columns into groups by index modulo the bandwidth ml + mu + 1 (groups are
1-indexed in the code, so column j lands in group (j mod width) + 1),
issues exactly min(ml + mu + 1, n) extra residual evaluations — the
counter nfeB increases by exactly that amount — and fills every in-band
entry (i, j), for j - mu <= i <= min(j + ml, n - 1), with
(F(u + group perturbation)(i) - F(u)(i)) / inc(j). -/
theorem KINBandDQJac_spec (srur : ℚ) (func : (Nat → ℚ) → Nat → ℚ)
    (n mupper mlower : Nat) (u uscale : Nat → ℚ) (J0 : Nat → Nat → ℚ)
    (nfeB0 : Nat) (j i : Nat) (_hn : 1 ≤ n) (hj : j < n)
    (hi1 : j - mupper ≤ i) (hi2 : i ≤ min (j + mlower) (n - 1)) :
    (KINBandDQJac srur func n mupper mlower u (func u) uscale J0 nfeB0).2.2 =
      nfeB0 + min (mlower + mupper + 1) n ∧
    j ∈ groupCols (j % (mlower + mupper + 1) + 1) (mlower + mupper + 1) n ∧
    (KINBandDQJac srur func n mupper mlower u (func u) uscale J0 nfeB0).1 i j =
      (1 / dqInc srur u uscale j) *
        (func (pertGroup srur u uscale (mlower + mupper + 1) n
          (j % (mlower + mupper + 1) + 1)) i - func u i) := by
  refine ⟨rfl, (mem_groupCols _ _ _ _).mpr ⟨hj, by omega⟩, ?_⟩
  have hw : 0 < mlower + mupper + 1 := by omega
  have hmod : j % (mlower + mupper + 1) < min (mlower + mupper + 1) n := by
    rcases le_or_lt (mlower + mupper + 1) n with hcase | hcase
    · rw [min_eq_left hcase]
      exact Nat.mod_lt _ hw
    · rw [min_eq_right (le_of_lt hcase),
        Nat.mod_eq_of_lt (lt_trans hj hcase)]
      exact hj
  have H := (dqGroups_fold srur func n mupper mlower u (func u) uscale
    (min (mlower + mupper + 1) n) J0).2 i j
  simp only [KINBandDQJac] at H ⊢
  rw [H, if_pos ⟨hj, hmod, hi1, hi2⟩]

/-- C3 witness: n = 10, ml = mu = 1 (bandwidth 3), so exactly 3 extra
evaluations are issued, and the in-band entry (0, 1) carries the group
quotient. -/
theorem KINBandDQJac_spec_witness :
    (1 ≤ 10 ∧ 1 < 10 ∧ 1 - 1 ≤ 0 ∧ 0 ≤ min (1 + 1) (10 - 1)) ∧
    ((KINBandDQJac 1 (fun v => v) 10 1 1 (fun _ => (1 : ℚ))
        ((fun v => v) (fun _ => (1 : ℚ))) (fun _ => (0 : ℚ))
        (fun _ _ => (0 : ℚ)) 0).2.2 = 0 + min (1 + 1 + 1) 10 ∧
      1 ∈ groupCols (1 % (1 + 1 + 1) + 1) (1 + 1 + 1) 10 ∧
      (KINBandDQJac 1 (fun v => v) 10 1 1 (fun _ => (1 : ℚ))
        ((fun v => v) (fun _ => (1 : ℚ))) (fun _ => (0 : ℚ))
        (fun _ _ => (0 : ℚ)) 0).1 0 1 =
        (1 / dqInc 1 (fun _ => (1 : ℚ)) (fun _ => (0 : ℚ)) 1) *
          ((fun v => v) (pertGroup 1 (fun _ => (1 : ℚ)) (fun _ => (0 : ℚ))
            (1 + 1 + 1) 10 (1 % (1 + 1 + 1) + 1)) 0 -
            (fun v => v) (fun _ => (1 : ℚ)) 0)) :=
  ⟨⟨by norm_num, by norm_num, by norm_num, by norm_num⟩,
    KINBandDQJac_spec 1 (fun v => v) 10 1 1 (fun _ => (1 : ℚ))
      (fun _ => (0 : ℚ)) (fun _ _ => (0 : ℚ)) 0 1 0
      (by norm_num) (by norm_num) (by norm_num) (by norm_num)⟩

/-- C5: the entries perturbed for a column group are restored to their
values from u before the group step ends (hence before the next group is
perturbed), and at the end of the whole build the work vector utemp
equals u; the input vector u itself is read-only throughout. -/
theorem KINBandDQJac_restores_u (srur : ℚ) (func : (Nat → ℚ) → Nat → ℚ)
    (n mupper mlower : Nat) (u fu uscale : Nat → ℚ) :
    (∀ (g : Nat) (J0m : Nat → Nat → ℚ),
      (dqGroupStep srur func n mupper mlower u fu uscale
        (DQState.mk u J0m) g).utemp = u) ∧
    ∀ (J0 : Nat → Nat → ℚ) (nfeB0 : Nat),
      (KINBandDQJac srur func n mupper mlower u fu uscale J0 nfeB0).2.1 = u := by
  refine ⟨fun g J0m =>
    dqGroupStep_utemp srur func n mupper mlower u fu uscale g _ rfl,
    fun J0 nfeB0 => ?_⟩
  simp only [KINBandDQJac]
  exact (dqGroups_fold srur func n mupper mlower u fu uscale
    (min (mlower + mupper + 1) n) J0).1

/-- C4 counterexample: the perturbation increment has no floor guard.
With a positive sqrt-roundoff factor and a column whose iterate and scale
entries are both zero, inc evaluates to exactly zero, so the quotient
1/inc in the build divides by zero (undefined behaviour in the C code). -/
theorem dqInc_no_floor_guard_cx :
    (0 : ℚ) < 1 ∧ (fun _ : Nat => (0 : ℚ)) 0 = 0 ∧
    (fun _ : Nat => (0 : ℚ)) 0 = 0 ∧
    dqInc 1 (fun _ => (0 : ℚ)) (fun _ => (0 : ℚ)) 0 = 0 ∧
    MIN_INC_MULT = 1000 := by
  refine ⟨by norm_num, rfl, rfl, ?_, rfl⟩
  simp [dqInc]

/-- C4 (amended): inc = srur * max(abs u_j, abs uscale_j) with no floor
guard; for a nonzero srur, inc is zero exactly when u_j and uscale_j are
both zero, so the difference quotients divide by a nonzero inc precisely
when the two entries are not both zero (KINSOL requires strictly positive
scaling entries, which rules the zero case out in contract). -/
theorem dqInc_eq_zero_iff (srur : ℚ) (u uscale : Nat → ℚ) (j : Nat)
    (h : srur ≠ 0) :
    dqInc srur u uscale j = 0 ↔ (u j = 0 ∧ uscale j = 0) := by
  unfold dqInc
  rw [mul_eq_zero]
  constructor
  · rintro (hs | hm)
    · exact absurd hs h
    · have hu : |u j| = 0 :=
        le_antisymm (hm ▸ le_max_left _ _) (abs_nonneg _)
      have hs2 : |uscale j| = 0 :=
        le_antisymm (hm ▸ le_max_right _ _) (abs_nonneg _)
      exact ⟨abs_eq_zero.mp hu, abs_eq_zero.mp hs2⟩
  · rintro ⟨h1, h2⟩
    right
    rw [h1, h2]
    simp

/-- C4 witness for the amended theorem: with srur = 1 and entries 0 and
2, inc is nonzero because the scale entry is nonzero. -/
theorem dqInc_eq_zero_iff_witness :
    (1 : ℚ) ≠ 0 ∧
    (dqInc 1 (fun _ => (0 : ℚ)) (fun _ => (2 : ℚ)) 0 = 0 ↔
      ((fun _ => (0 : ℚ)) 0 = 0 ∧ (fun _ => (2 : ℚ)) 0 = 0)) :=
  ⟨by norm_num,
    dqInc_eq_zero_iff 1 (fun _ => (0 : ℚ)) (fun _ => (2 : ℚ)) 0 (by norm_num)⟩

/-- C6: with a valid handle, compatible vector and successful allocation,
the banded constructor rejects (with the illegal-input return) any
half-bandwidths with ml < 0, mu < 0, ml >= N or mu >= N, and on success
it stores an extended storage bandwidth of min(N - 1, mu + ml) together
with half-bandwidths satisfying 0 <= ml, mu < N. -/
theorem KINBand_invariant (allocMatOk allocPivOk : Bool)
    (N mupper mlower : Int) :
    (mlower < 0 ∨ mupper < 0 ∨ mlower ≥ N ∨ mupper ≥ N →
      KINBand false true true allocMatOk allocPivOk N mupper mlower =
        KINBandRet.illInput) ∧
    ∀ st, KINBand false true true allocMatOk allocPivOk N mupper mlower =
        KINBandRet.success st →
      st.b_storage_mu = min (N - 1) (mupper + mlower) ∧
      st.b_n = N ∧ st.b_ml = mlower ∧ st.b_mu = mupper ∧
      0 ≤ st.b_ml ∧ 0 ≤ st.b_mu ∧ st.b_ml < st.b_n ∧ st.b_mu < st.b_n := by
  unfold KINBand
  simp only [Bool.false_eq_true, Bool.true_eq_false, if_false]
  constructor
  · intro hbad
    rw [if_pos hbad]
  · intro st hst
    by_cases hbad : mlower < 0 ∨ mupper < 0 ∨ mlower ≥ N ∨ mupper ≥ N
    · rw [if_pos hbad] at hst
      simp at hst
    · rw [if_neg hbad] at hst
      cases allocMatOk
      · simp at hst
      · cases allocPivOk
        · simp at hst
        · simp only [Bool.true_eq_false, if_false] at hst
          injection hst with h
          subst h
          refine ⟨rfl, rfl, rfl, rfl, ?_, ?_, ?_, ?_⟩
          · show (0 : Int) ≤ mlower
            omega
          · show (0 : Int) ≤ mupper
            omega
          · show mlower < N
            omega
          · show mupper < N
            omega

/-- C6 witness: N = 5, mu = 1, ml = 2 passes the legality test and stores
storage_mu = min(4, 3) = 3; the bad-size implication is vacuous there. -/
theorem KINBand_invariant_witness :
    (((2 : Int) < 0 ∨ (1 : Int) < 0 ∨ (2 : Int) ≥ 5 ∨ (1 : Int) ≥ 5 →
      KINBand false true true true true 5 1 2 = KINBandRet.illInput) ∧
    ∀ st, KINBand false true true true true 5 1 2 = KINBandRet.success st →
      st.b_storage_mu = min ((5 : Int) - 1) (1 + 2) ∧
      st.b_n = 5 ∧ st.b_ml = 2 ∧ st.b_mu = 1 ∧
      0 ≤ st.b_ml ∧ 0 ≤ st.b_mu ∧ st.b_ml < st.b_n ∧ st.b_mu < st.b_n) ∧
    KINBand false true true true true 5 1 2 =
      KINBandRet.success (KINBandMemRec.mk 5 2 1 3 0) :=
  ⟨KINBand_invariant true true 5 1 2, by decide⟩

/-- Helper: under the modelled jok discipline, a jok = true call at
position i means either the discipline started with data already cached,
or some earlier call was issued with jok = false and succeeded. -/
theorem jokContractFrom_earlier :
    ∀ (calls : List PrecSetupCall) (cached : Bool),
      jokContractFrom cached calls = true →
      ∀ (i : Nat) (hi : i < calls.length),
        (calls.get ⟨i, hi⟩).jok = true →
        cached = true ∨ ∃ (k : Nat) (hk : k < calls.length), k < i ∧
          (calls.get ⟨k, hk⟩).jok = false ∧
          (calls.get ⟨k, hk⟩).retOk = true := by
  intro calls
  induction calls with
  | nil =>
    intro cached _ i hi
    exact absurd hi (by simp)
  | cons c rest ih =>
    intro cached h i hi hjok
    have h1 : (!c.jok || cached) = true ∧
        jokContractFrom (cached || (!c.jok && c.retOk)) rest = true := by
      simpa [jokContractFrom, Bool.and_eq_true] using h
    cases i with
    | zero =>
      left
      have hc : c.jok = true := hjok
      rcases (Bool.or_eq_true _ _) ▸ h1.1 with hneg | hcach
      · rw [hc] at hneg
        simp at hneg
      · exact hcach
    | succ i' =>
      have hi' : i' < rest.length := by simpa using hi
      have hjok' : (rest.get ⟨i', hi'⟩).jok = true := hjok
      rcases ih _ h1.2 i' hi' hjok' with hc | ⟨k, hk, hki, hkj, hko⟩
      · rcases (Bool.or_eq_true _ _) ▸ hc with hcach | hfresh
        · exact Or.inl hcach
        · right
          have hand := (Bool.and_eq_true _ _) ▸ hfresh
          refine ⟨0, by simp, Nat.succ_pos i', ?_, hand.2⟩
          have := hand.1
          simp at this
          exact this
      · right
        exact ⟨k + 1, by simpa using hk, Nat.succ_lt_succ hki, hkj, hko⟩

/-- C8: under the documented caller discipline for the preconditioner
setup callback (modelled from the spec), a call with jok = true never
occurs before some earlier call with jok = false has succeeded; in
particular the first call of any run carries jok = false. -/
theorem precSetup_jok_first_call :
    (∀ (c : PrecSetupCall) (rest : List PrecSetupCall),
      jokContract (c :: rest) = true → c.jok = false) ∧
    ∀ (calls : List PrecSetupCall), jokContract calls = true →
      ∀ (i : Nat) (hi : i < calls.length),
        (calls.get ⟨i, hi⟩).jok = true →
        ∃ (k : Nat) (hk : k < calls.length), k < i ∧
          (calls.get ⟨k, hk⟩).jok = false ∧
          (calls.get ⟨k, hk⟩).retOk = true := by
  constructor
  · intro c rest h
    have h1 : (!c.jok || false) = true ∧
        jokContractFrom (false || (!c.jok && c.retOk)) rest = true := by
      simpa [jokContract, jokContractFrom, Bool.and_eq_true] using h
    have := h1.1
    simp at this
    exact this
  · intro calls h i hi hjok
    rcases jokContractFrom_earlier calls false h i hi hjok with hc | hex
    · exact absurd hc (by simp)
    · exact hex

/-- C8 witness: the two-call run (jok = false succeeding, then
jok = true) satisfies the contract and indeed starts with jok = false. -/
theorem precSetup_jok_first_call_witness :
    jokContract [PrecSetupCall.mk false true, PrecSetupCall.mk true true] =
      true ∧
    (PrecSetupCall.mk false true).jok = false :=
  ⟨by decide,
    precSetup_jok_first_call.1 (PrecSetupCall.mk false true)
      [PrecSetupCall.mk true true] (by decide)⟩

end Sundials
